import Mathlib

/-!
Verification of the escape-time fractal renderer (`src/fractals.cu`).

The CUDA kernels are shallowly embedded: machine floating point is
idealised as exact arithmetic, with the iteration state over `ℚ` and the
transcendental colour pipeline over `ℝ`.  The per-pixel loop of each
kernel becomes a fuel-indexed structural recursion (`escapeAux`), the
pixel-to-plane mapping becomes `planeMap`, the smooth colouring becomes
`get_color`, the grid launch becomes an order-insensitive fold of
disjoint buffer writes, and `save_ppm` becomes a byte-list serialiser
with a matching parser for the round-trip property.
-/

namespace CudaFractals

/-- RGB colour with 8-bit channels, as in `struct Color`. -/
structure Color where
  r : ℕ
  g : ℕ
  b : ℕ
deriving DecidableEq

/-- The three fractal families implemented by the three kernels. -/
inductive FractalVariant
  | mandelbrot
  | julia
  | burningShip
deriving DecidableEq

/-- Source function `complex_mul`: `(a.x*b.x - a.y*b.y, a.x*b.y + a.y*b.x)`. -/
def complex_mul (a b : ℚ × ℚ) : ℚ × ℚ :=
  (a.1 * b.1 - a.2 * b.2, a.1 * b.2 + a.2 * b.1)

/-- Source function `complex_mag_squared`: `c.x*c.x + c.y*c.y`. -/
def complex_mag_squared (c : ℚ × ℚ) : ℚ :=
  c.1 * c.1 + c.2 * c.2

/-- Result of the escape-time loop: the iteration count and the tracked
`mag_sq` value at loop exit. -/
structure EscapeResult where
  iterations : ℕ
  final_magnitude_sq : ℚ
deriving DecidableEq

/-- One loop body iteration.  The Burning Ship kernel first replaces `z`
by `(|Re z|, |Im z|)` (lines 142-143); all variants then square via
`complex_mul` and add the constant `c`. -/
def iterOnce (v : FractalVariant) (c z : ℚ × ℚ) : ℚ × ℚ :=
  match v with
  | .burningShip =>
      let za : ℚ × ℚ := (|z.1|, |z.2|)
      let zz := complex_mul za za
      (zz.1 + c.1, zz.2 + c.2)
  | _ =>
      let zz := complex_mul z z
      (zz.1 + c.1, zz.2 + c.2)

/-- The kernel loop `while (iter < MAX_ITER && mag_sq < 16.0f)`, with
`fuel = maxIter - iter` so that fuel exhaustion is exactly the
`iter == max_iter` test, checked before the magnitude test (the order of
the two operands of `&&`). -/
def escapeAux (v : FractalVariant) (c : ℚ × ℚ) : ℚ × ℚ → ℚ → ℕ → ℕ → EscapeResult
  | _, magSq, iter, 0 => ⟨iter, magSq⟩
  | z, magSq, iter, fuel + 1 =>
      if magSq < 16 then
        let z1 := iterOnce v c z
        escapeAux v c z1 (complex_mag_squared z1) (iter + 1) fuel
      else ⟨iter, magSq⟩

/-- The escape-time evaluator: iteration starts at `z0` with
`iter = 0` and `mag_sq = 0.0f` (lines 64-65, 102-103, 137-138). -/
def evaluate (v : FractalVariant) (c z0 : ℚ × ℚ) (maxIter : ℕ) : EscapeResult :=
  escapeAux v c z0 0 0 maxIter

/-- The Mandelbrot trajectory of the constant `c` from `z0 = (0,0)`. -/
def mandelOrbit (c : ℚ × ℚ) (n : ℕ) : ℚ × ℚ :=
  (fun z => iterOnce .mandelbrot c z)^[n] (0, 0)

/-- The view parameters `(center_x, center_y, zoom)` of a render. -/
structure View where
  center_x : ℚ
  center_y : ℚ
  zoom : ℚ

/-- Pixel-to-plane mapping of the three kernels (lines 57-59, 95-97,
130-132).  The Mandelbrot and Burning Ship kernels add the view centre,
with the Burning Ship flipping the sign of the imaginary offset; the
Julia kernel has no centre parameters at all and maps relative to the
origin. -/
def planeMap (v : FractalVariant) (view : View) (x y w h : ℕ) : ℚ × ℚ :=
  let scale : ℚ := 4 / (view.zoom * ((min w h : ℕ) : ℚ))
  match v with
  | .mandelbrot =>
      (view.center_x + ((x : ℚ) - (w : ℚ) / 2) * scale,
       view.center_y + ((y : ℚ) - (h : ℚ) / 2) * scale)
  | .julia =>
      (((x : ℚ) - (w : ℚ) / 2) * scale,
       ((y : ℚ) - (h : ℚ) / 2) * scale)
  | .burningShip =>
      (view.center_x + ((x : ℚ) - (w : ℚ) / 2) * scale,
       view.center_y - ((y : ℚ) - (h : ℚ) / 2) * scale)

/-- The Plane Mapper as the specification words it, for comparison with
`planeMap`: for every variant `re = center_x + (x - width/2) * scale` and
`im = center_y ± (y - height/2) * scale`, the sign of the `y` term being
minus exactly for the Burning Ship variant. -/
def planeMapSpec (v : FractalVariant) (view : View) (x y w h : ℕ) : ℚ × ℚ :=
  let scale : ℚ := 4 / (view.zoom * ((min w h : ℕ) : ℚ))
  (view.center_x + ((x : ℚ) - (w : ℚ) / 2) * scale,
   view.center_y +
     (if v = .burningShip then -(((y : ℚ) - (h : ℚ) / 2) * scale)
      else ((y : ℚ) - (h : ℚ) / 2) * scale))

/-- The green-channel phase offset hardcoded in `get_color` (line 35):
the literal `2.094f`, annotated in the source as an approximation of
`2π/3`. -/
noncomputable def phase_g : ℝ := 2.094

/-- The blue-channel phase offset hardcoded in `get_color` (line 36):
the literal `4.188f`, annotated in the source as an approximation of
`4π/3`. -/
noncomputable def phase_b : ℝ := 4.188

/-- Source function `get_color`: black inside the set, otherwise three
phase-shifted sine waves at `t = (iter + smooth_iter) * 0.05`, attenuated
by `1 - exp(-0.1 * iter)`, scaled to `[0,255]` and truncated.  The C cast
`(unsigned char)` truncates the (nonnegative) float, i.e. takes the
floor. -/
noncomputable def get_color (maxIter iter : ℕ) (smooth_iter : ℝ) : Color :=
  if iter = maxIter then ⟨0, 0, 0⟩
  else
    let t : ℝ := ((iter : ℝ) + smooth_iter) * 0.05
    let brightness : ℝ := 1 - Real.exp (-0.1 * (iter : ℝ))
    ⟨⌊(255 : ℝ) * (0.5 + 0.5 * Real.sin t) * brightness⌋₊,
     ⌊(255 : ℝ) * (0.5 + 0.5 * Real.sin (t + phase_g)) * brightness⌋₊,
     ⌊(255 : ℝ) * (0.5 + 0.5 * Real.sin (t + phase_b)) * brightness⌋₊⟩

/-- The kernels' smoothing term for escaped points (lines 78-80):
`log(log(sqrt(mag_sq))) / log 2`. -/
noncomputable def smooth_value (magSq : ℝ) : ℝ :=
  Real.log (Real.log (Real.sqrt magSq)) / Real.log 2

/-- A guarded logarithm: `none` when the argument is not strictly
positive (the error branch a partial logarithm would take). -/
noncomputable def safeLog (x : ℝ) : Option ℝ :=
  if 0 < x then some (Real.log x) else none

/-- The smoothing term computed through the guarded logarithm; its
result is `none` exactly when a logarithm would be applied to a
non-positive argument. -/
noncomputable def smoothChecked (magSq : ℝ) : Option ℝ := do
  let l1 ← safeLog (Real.sqrt magSq)
  let l2 ← safeLog l1
  pure (l2 / Real.log 2)

/-- The Smooth Color Mapper as the specification's §4.3 policy words it,
taking a whole `EscapeResult` (with the source's phase constants): black
at the iteration cap, otherwise the smoothing term is recomputed from
`final_magnitude_sq` and fed to the three-phase sine palette. -/
noncomputable def smoothColorSpec (maxIter : ℕ) (er : EscapeResult) : Color :=
  if er.iterations = maxIter then ⟨0, 0, 0⟩
  else
    let smooth : ℝ :=
      Real.log (Real.log (Real.sqrt (er.final_magnitude_sq : ℝ))) / Real.log 2
    let t : ℝ := ((er.iterations : ℝ) + smooth) * 0.05
    let brightness : ℝ := 1 - Real.exp (-0.1 * (er.iterations : ℝ))
    ⟨⌊(255 : ℝ) * (0.5 + 0.5 * Real.sin (t + 0)) * brightness⌋₊,
     ⌊(255 : ℝ) * (0.5 + 0.5 * Real.sin (t + phase_g)) * brightness⌋₊,
     ⌊(255 : ℝ) * (0.5 + 0.5 * Real.sin (t + phase_b)) * brightness⌋₊⟩

/-- The colour a kernel stores for an escape result: the kernel computes
`smooth_iter` (zero at the iteration cap, lines 77-80) and passes it to
`get_color`. -/
noncomputable def colorOfResult (maxIter : ℕ) (er : EscapeResult) : Color :=
  let smooth_iter : ℝ :=
    if er.iterations < maxIter then smooth_value (er.final_magnitude_sq : ℝ) else 0
  get_color maxIter er.iterations smooth_iter

/-- One full render specification, §3 of the specification.  `juliaC` is
the Julia constant (only read by the Julia kernel); the view centre is
only read by the Mandelbrot and Burning Ship kernels. -/
structure Scene where
  variant : FractalVariant
  view : View
  juliaC : ℚ × ℚ
  width : ℕ
  height : ℕ
  maxIter : ℕ

/-- The per-pixel pipeline of each kernel: plane-map the pixel, pick the
iterated variable and constant by variant (Mandelbrot/Burning Ship start
at `(0,0)` with the mapped point as constant; Julia starts at the mapped
point with the scene constant), evaluate, and colour. -/
noncomputable def pixelColor (s : Scene) (x y : ℕ) : Color :=
  let z0 := planeMap s.variant s.view x y s.width s.height
  let er :=
    match s.variant with
    | .julia => evaluate .julia s.juliaC z0 s.maxIter
    | v => evaluate v z0 (0, 0) s.maxIter
  colorOfResult s.maxIter er

/-- Flat buffer offset of pixel `(x, y)`: `y * width + x` (line 84). -/
def pixelIdx (w : ℕ) (p : ℕ × ℕ) : ℕ := p.2 * w + p.1

/-- All pixels of a `w × h` grid, listed by flat buffer index. -/
def allPixels (w h : ℕ) : List (ℕ × ℕ) :=
  (List.range (w * h)).map fun i => (i % w, i / w)

/-- The grid launch as a sequence of independent per-pixel writes in an
arbitrary schedule `order`: each work item writes `pixelColor` into its
own flat offset of the buffer. -/
noncomputable def runGrid (s : Scene) : List (ℕ × ℕ) → (ℕ → Color) → (ℕ → Color)
  | [], buf => buf
  | p :: rest, buf =>
      runGrid s rest (Function.update buf (pixelIdx s.width p) (pixelColor s p.1 p.2))

/-- The host-side pixel buffer after a full render, row-major from the
top row down. -/
noncomputable def renderList (s : Scene) : List Color :=
  (allPixels s.width s.height).map fun p => pixelColor s p.1 p.2

/-- The raw RGB payload `fwrite` emits: three bytes per pixel,
interleaved, in buffer order (line 169). -/
def payloadBytes (buf : List Color) : List ℕ :=
  buf.flatMap fun col => [col.r, col.g, col.b]

/-- ASCII decimal representation of a natural number, as `%d` prints
it. -/
def decRep (n : ℕ) : List ℕ :=
  if h : n < 10 then [48 + n] else decRep (n / 10) ++ [48 + n % 10]
decreasing_by
  simp_wf
  omega

/-- The bytes `save_ppm` writes on success: the header
`"P6\n%d %d\n255\n"` (line 168) followed by the raw payload. -/
def savePPMBytes (w h : ℕ) (buf : List Color) : List ℕ :=
  [80, 54, 10] ++ decRep w ++ [32] ++ decRep h ++ [10, 50, 53, 53, 10] ++ payloadBytes buf

/-- Source function `save_ppm` (lines 161-172): if the destination cannot be opened the
error is reported and nothing is written (`none`); otherwise the header
and payload are written. -/
def save_ppm (canOpen : Bool) (w h : ℕ) (buf : List Color) : Option (List ℕ) :=
  if canOpen then some (savePPMBytes w h buf) else none

/-- Is the byte an ASCII decimal digit? -/
def isDigitByte (b : ℕ) : Bool := decide (48 ≤ b) && decide (b ≤ 57)

/-- Greedily consume decimal digits, accumulating their value. -/
def parseNatAux : List ℕ → ℕ → ℕ × List ℕ
  | [], acc => (acc, [])
  | b :: rest, acc =>
      if isDigitByte b then parseNatAux rest (acc * 10 + (b - 48)) else (acc, b :: rest)

/-- Parse a nonempty run of decimal digits. -/
def parseNatBytes (l : List ℕ) : Option (ℕ × List ℕ) :=
  match l with
  | [] => none
  | b :: _ => if isDigitByte b then some (parseNatAux l 0) else none

/-- Require one exact byte. -/
def expectByte (b : ℕ) : List ℕ → Option (List ℕ)
  | [] => none
  | c :: rest => if c = b then some rest else none

/-- Re-parse a written container: the `P6` magic, width, height and
maximum channel value from the ASCII header, and the raw payload. -/
def parsePPM (l : List ℕ) : Option (ℕ × ℕ × ℕ × List ℕ) := do
  let l1 ← expectByte 80 l
  let l2 ← expectByte 54 l1
  let l3 ← expectByte 10 l2
  let (w, l4) ← parseNatBytes l3
  let l5 ← expectByte 32 l4
  let (h, l6) ← parseNatBytes l5
  let l7 ← expectByte 10 l6
  let (m, l8) ← parseNatBytes l7
  let l9 ← expectByte 10 l8
  pure (w, h, m, l9)

/-- Image width constant, `WIDTH = 1920`. -/
def WIDTH : ℕ := 1920

/-- Image height constant, `HEIGHT = 1080`. -/
def HEIGHT : ℕ := 1080

/-- Iteration cap constant, `MAX_ITER = 1000`. -/
def MAX_ITER : ℕ := 1000

/-- Scene 1 of `main`: the classic Mandelbrot view. -/
def mandelbrotClassicScene : Scene :=
  ⟨.mandelbrot, ⟨-0.5, 0, 1⟩, (0, 0), WIDTH, HEIGHT, MAX_ITER⟩

/-- The seven preset scenes of `main` (lines 190-236), with their
destination file names, in launch order. -/
def sceneFiles : List (String × Scene) :=
  [("mandelbrot_classic.ppm", mandelbrotClassicScene),
   ("mandelbrot_zoom.ppm", ⟨.mandelbrot, ⟨-0.7, 0, 100⟩, (0, 0), WIDTH, HEIGHT, MAX_ITER⟩),
   ("julia_1.ppm", ⟨.julia, ⟨0, 0, 1⟩, (-0.7, 0.27015), WIDTH, HEIGHT, MAX_ITER⟩),
   ("julia_2.ppm", ⟨.julia, ⟨0, 0, 1⟩, (-0.4, 0.6), WIDTH, HEIGHT, MAX_ITER⟩),
   ("julia_3.ppm", ⟨.julia, ⟨0, 0, 1⟩, (0.285, 0.01), WIDTH, HEIGHT, MAX_ITER⟩),
   ("burning_ship.ppm", ⟨.burningShip, ⟨-1.8, -0.08, 1⟩, (0, 0), WIDTH, HEIGHT, MAX_ITER⟩),
   ("mandelbrot_deep_zoom.ppm", ⟨.mandelbrot, ⟨-0.7269, 0.1889, 10000⟩, (0, 0), WIDTH, HEIGHT, MAX_ITER⟩)]

/-- The driver `main`: render every preset scene in order and attempt to save each
one; `fs` tells which destinations can be opened.  A failed save yields
`none` for that scene and the run continues. -/
noncomputable def runMain (fs : String → Bool) : List (String × Option (List ℕ)) :=
  sceneFiles.map fun e => (e.1, save_ppm (fs e.1) e.2.width e.2.height (renderList e.2))

theorem escapeAux_iterations_le (v : FractalVariant) (c : ℚ × ℚ) :
    ∀ (fuel : ℕ) (z : ℚ × ℚ) (magSq : ℚ) (iter : ℕ),
      (escapeAux v c z magSq iter fuel).iterations ≤ iter + fuel := by
  intro fuel
  induction fuel with
  | zero => intro z magSq iter; simp [escapeAux]
  | succ n ih =>
      intro z magSq iter
      by_cases h : magSq < 16
      · simp only [escapeAux, if_pos h]
        calc (escapeAux v c (iterOnce v c z)
                (complex_mag_squared (iterOnce v c z)) (iter + 1) n).iterations
            ≤ iter + 1 + n := ih _ _ _
          _ = iter + (n + 1) := by omega
      · simp only [escapeAux, if_neg h]
        omega

theorem le_escapeAux_iterations (v : FractalVariant) (c : ℚ × ℚ) :
    ∀ (fuel : ℕ) (z : ℚ × ℚ) (magSq : ℚ) (iter : ℕ),
      iter ≤ (escapeAux v c z magSq iter fuel).iterations := by
  intro fuel
  induction fuel with
  | zero => intro z magSq iter; simp [escapeAux]
  | succ n ih =>
      intro z magSq iter
      by_cases h : magSq < 16
      · simp only [escapeAux, if_pos h]
        calc iter ≤ iter + 1 := by omega
          _ ≤ _ := ih _ _ _
      · simp only [escapeAux, if_neg h]
        exact le_refl iter

theorem escapeAux_exit (v : FractalVariant) (c : ℚ × ℚ) :
    ∀ (fuel : ℕ) (z : ℚ × ℚ) (magSq : ℚ) (iter : ℕ),
      (escapeAux v c z magSq iter fuel).iterations = iter + fuel ∨
        16 ≤ (escapeAux v c z magSq iter fuel).final_magnitude_sq := by
  intro fuel
  induction fuel with
  | zero => intro z magSq iter; left; simp [escapeAux]
  | succ n ih =>
      intro z magSq iter
      by_cases h : magSq < 16
      · simp only [escapeAux, if_pos h]
        rcases ih (iterOnce v c z) (complex_mag_squared (iterOnce v c z)) (iter + 1) with h1 | h2
        · left; omega
        · right; exact h2
      · right
        simp only [escapeAux, if_neg h]
        exact le_of_not_lt h

/-- On escape (`iterations < maxIter` at the outermost call) the final
magnitude honours the bailout threshold. -/
theorem evaluate_escaped_mag (v : FractalVariant) (c z0 : ℚ × ℚ) (maxIter : ℕ)
    (h : (evaluate v c z0 maxIter).iterations < maxIter) :
    16 ≤ (evaluate v c z0 maxIter).final_magnitude_sq := by
  rcases escapeAux_exit v c maxIter z0 0 0 with h1 | h2
  · exfalso
    have : (evaluate v c z0 maxIter).iterations = maxIter := by
      simpa [evaluate] using h1
    omega
  · simpa [evaluate] using h2

/-- Claim C1: for every variant, starting point and constant, the evaluator
terminates with `iterations ∈ [0, max_iter]`; whenever `iterations < max_iter`
the final magnitude is at least the bailout threshold `16`; and the loop can
only exit through one of the two terminal tests (iteration cap, checked
first, or bailout). -/
theorem escape_result_bounds (v : FractalVariant) (c z0 : ℚ × ℚ) (maxIter : ℕ) :
    (evaluate v c z0 maxIter).iterations ≤ maxIter ∧
    ((evaluate v c z0 maxIter).iterations < maxIter →
      16 ≤ (evaluate v c z0 maxIter).final_magnitude_sq) ∧
    ((evaluate v c z0 maxIter).iterations = maxIter ∨
      16 ≤ (evaluate v c z0 maxIter).final_magnitude_sq) := by
  refine ⟨?_, fun h => evaluate_escaped_mag v c z0 maxIter h, ?_⟩
  · simpa [evaluate] using escapeAux_iterations_le v c maxIter z0 0 0
  · simpa [evaluate] using escapeAux_exit v c maxIter z0 0 0

/-- Witness for C1 at a concrete escaping input: Mandelbrot with
`c = (4, 0)` escapes after one step of a 2-iteration budget, and the
reported magnitude is at least 16. -/
theorem escape_result_bounds_witness :
    16 ≤ (evaluate .mandelbrot (4, 0) (0, 0) 2).final_magnitude_sq :=
  (escape_result_bounds .mandelbrot (4, 0) (0, 0) 2).2.1 (by
    norm_num [evaluate, escapeAux, iterOnce, complex_mul, complex_mag_squared])

/-- Counterexample to claim C10 as stated: for the Julia evaluator with
constant `(-16, 0)`, the starting point `(4, 0)` is already outside the
bailout radius (`|z0|² = 16 ≥ 16`), yet the evaluator reports
`iterations = 2`, not `1` — the first step lands back inside the radius
at `(0, 0)`. -/
theorem julia_outside_radius_not_one_iteration :
    16 ≤ complex_mag_squared (4, 0) ∧
      (evaluate .julia (-16, 0) (4, 0) 3).iterations ≠ 1 := by
  constructor
  · norm_num [complex_mag_squared]
  · norm_num [evaluate, escapeAux, iterOnce, complex_mul, complex_mag_squared]

/-- Claim C10 (amended): for every variant and every starting point, if
`max_iter ≥ 1` the evaluator reports `iterations ≥ 1` — the magnitude
test only runs after a transition step because the tracked magnitude
starts at `0`, so no input ever reports `0` iterations. -/
theorem evaluator_at_least_one_iteration (v : FractalVariant) (c z0 : ℚ × ℚ)
    (maxIter : ℕ) (h : 1 ≤ maxIter) :
    1 ≤ (evaluate v c z0 maxIter).iterations := by
  obtain ⟨k, rfl⟩ : ∃ k, maxIter = k + 1 := ⟨maxIter - 1, by omega⟩
  show 1 ≤ (escapeAux v c z0 0 0 (k + 1)).iterations
  have h16 : (0 : ℚ) < 16 := by norm_num
  simp only [escapeAux, if_pos h16]
  exact le_escapeAux_iterations v c k _ _ 1

/-- Witness for the amended C10 at a concrete input. -/
theorem evaluator_at_least_one_iteration_witness :
    1 ≤ (evaluate .mandelbrot (0, 0) (0, 0) 1).iterations :=
  evaluator_at_least_one_iteration .mandelbrot (0, 0) (0, 0) 1 (le_refl 1)

theorem escapeAux_burning_ship_eq (c : ℚ × ℚ) :
    ∀ (fuel : ℕ) (z : ℚ × ℚ) (magSq : ℚ) (iter : ℕ),
      (∀ n : ℕ, 0 ≤ ((fun w => iterOnce .mandelbrot c w)^[n] z).1 ∧
          0 ≤ ((fun w => iterOnce .mandelbrot c w)^[n] z).2) →
      escapeAux .burningShip c z magSq iter fuel =
        escapeAux .mandelbrot c z magSq iter fuel := by
  intro fuel
  induction fuel with
  | zero => intro z magSq iter _; rfl
  | succ n ih =>
      intro z magSq iter hpos
      by_cases h : magSq < 16
      · have hz := hpos 0
        simp only [Function.iterate_zero, id_eq] at hz
        have hstep : iterOnce .burningShip c z = iterOnce .mandelbrot c z := by
          simp [iterOnce, complex_mul, abs_of_nonneg hz.1, abs_of_nonneg hz.2]
        simp only [escapeAux, if_pos h, hstep]
        exact ih (iterOnce .mandelbrot c z) _ _ fun m => by
          have hm := hpos (m + 1)
          simpa [Function.iterate_succ_apply] using hm
      · simp only [escapeAux, if_neg h]

/-- Claim C5: when the Mandelbrot trajectory from `(0,0)` never has a
negative real or imaginary component, the Burning Ship and Mandelbrot
evaluators return identical escape results — the absolute-value step is
a no-op along such an orbit. -/
theorem burning_ship_eq_mandelbrot_on_nonneg (c : ℚ × ℚ) (maxIter : ℕ)
    (h : ∀ n : ℕ, 0 ≤ (mandelOrbit c n).1 ∧ 0 ≤ (mandelOrbit c n).2) :
    evaluate .burningShip c (0, 0) maxIter = evaluate .mandelbrot c (0, 0) maxIter := by
  simp only [mandelOrbit] at h
  exact escapeAux_burning_ship_eq c maxIter (0, 0) 0 0 h

/-- Witness for C5 at the constant `c = (0, 0)`, whose Mandelbrot orbit
is identically `(0, 0)`. -/
theorem burning_ship_eq_mandelbrot_on_nonneg_witness :
    evaluate .burningShip (0, 0) (0, 0) 3 = evaluate .mandelbrot (0, 0) (0, 0) 3 :=
  burning_ship_eq_mandelbrot_on_nonneg (0, 0) 3 fun n => by
    have hfix : iterOnce .mandelbrot (0, 0) (0, 0) = (0, 0) := by
      norm_num [iterOnce, complex_mul]
    simp only [mandelOrbit]
    rw [Function.iterate_fixed hfix n]
    norm_num

theorem escapeAux_bounded_invariant (v : FractalVariant) (c : ℚ × ℚ)
    (P : ℚ × ℚ → Prop)
    (hstep : ∀ z, P z →
      P (iterOnce v c z) ∧ complex_mag_squared (iterOnce v c z) < 16) :
    ∀ (fuel : ℕ) (z : ℚ × ℚ) (magSq : ℚ) (iter : ℕ), P z → magSq < 16 →
      (escapeAux v c z magSq iter fuel).iterations = iter + fuel := by
  intro fuel
  induction fuel with
  | zero => intro z magSq iter _ _; simp [escapeAux]
  | succ n ih =>
      intro z magSq iter hP hm
      simp only [escapeAux, if_pos hm]
      rw [ih _ _ _ (hstep z hP).1 (hstep z hP).2]
      omega

theorem mandel_half_iterations :
    (evaluate .mandelbrot (-0.5, 0) (0, 0) 1000).iterations = 1000 := by
  have hstep : ∀ z : ℚ × ℚ,
      (z.2 = 0 ∧ -(1 / 2) ≤ z.1 ∧ z.1 ≤ 1 / 2) →
      ((iterOnce .mandelbrot (-0.5, 0) z).2 = 0 ∧
        -(1 / 2) ≤ (iterOnce .mandelbrot (-0.5, 0) z).1 ∧
        (iterOnce .mandelbrot (-0.5, 0) z).1 ≤ 1 / 2) ∧
      complex_mag_squared (iterOnce .mandelbrot (-0.5, 0) z) < 16 := by
    rintro z ⟨h2, hlo, hhi⟩
    have hre : (iterOnce .mandelbrot (-0.5, 0) z).1 = z.1 * z.1 - 1 / 2 := by
      simp [iterOnce, complex_mul, h2]
      ring
    have him : (iterOnce .mandelbrot (-0.5, 0) z).2 = 0 := by
      simp [iterOnce, complex_mul, h2]
    have hsq1 : z.1 * z.1 ≤ 1 / 4 := by nlinarith
    have hsq0 : 0 ≤ z.1 * z.1 := mul_self_nonneg z.1
    refine ⟨⟨him, ?_, ?_⟩, ?_⟩
    · rw [hre]; nlinarith
    · rw [hre]; nlinarith
    · simp only [complex_mag_squared, hre, him]
      nlinarith
  have := escapeAux_bounded_invariant .mandelbrot (-0.5, 0)
    (fun z => z.2 = 0 ∧ -(1 / 2) ≤ z.1 ∧ z.1 ≤ 1 / 2) hstep 1000 (0, 0) 0 0
    ⟨rfl, by norm_num, by norm_num⟩ (by norm_num)
  simpa [evaluate] using this

/-- Claim C4: in the classic Mandelbrot scene
(`center = (-0.5, 0)`, `zoom = 1`), the centre pixel `(960, 540)` maps
exactly to `(-0.5, 0)`, that point stays bounded for the full 1000
iterations, and the rendered pixel is black. -/
theorem center_pixel_black :
    planeMap .mandelbrot ⟨-0.5, 0, 1⟩ 960 540 1920 1080 = (-0.5, 0) ∧
    (evaluate .mandelbrot (-0.5, 0) (0, 0) 1000).iterations = 1000 ∧
    pixelColor mandelbrotClassicScene 960 540 = ⟨0, 0, 0⟩ := by
  have hmap : planeMap .mandelbrot ⟨-0.5, 0, 1⟩ 960 540 1920 1080 = (-0.5, 0) := by
    norm_num [planeMap]
  refine ⟨hmap, mandel_half_iterations, ?_⟩
  show pixelColor mandelbrotClassicScene 960 540 = ⟨0, 0, 0⟩
  simp only [pixelColor, mandelbrotClassicScene, WIDTH, HEIGHT, MAX_ITER, hmap]
  simp only [colorOfResult, mandel_half_iterations, lt_irrefl, if_false, get_color,
    if_pos rfl]
  simp

/-- Counterexample to claim C2 as stated: the Julia kernel takes no view
centre at all, so with a nonzero `center_x` the mapped coordinate differs
from the claimed `center_x + (x - width/2) * scale` formula (here at
pixel `(0,0)` of a `4 × 4` grid with `center_x = 1`). -/
theorem plane_map_julia_center_counterexample :
    planeMap .julia ⟨1, 0, 1⟩ 0 0 4 4 ≠ planeMapSpec .julia ⟨1, 0, 1⟩ 0 0 4 4 := by
  norm_num [planeMap, planeMapSpec, min_self]

/-- Claim C2 (amended): the Mandelbrot and Burning Ship mappers realise
the claimed formula (`im` sign minus exactly for Burning Ship); the
Julia mapper realises it only with the view centre replaced by the
origin, since the kernel has no centre parameters. -/
theorem plane_map_formula (view : View) (x y w h : ℕ) :
    planeMap .mandelbrot view x y w h = planeMapSpec .mandelbrot view x y w h ∧
    planeMap .burningShip view x y w h = planeMapSpec .burningShip view x y w h ∧
    planeMap .julia view x y w h = planeMapSpec .julia ⟨0, 0, view.zoom⟩ x y w h := by
  refine ⟨?_, ?_, ?_⟩ <;> (simp [planeMap, planeMapSpec]; try ring_nf)

/-- Counterexample to claim C3's phase clause: the phase offsets
hardcoded in `get_color` are the literals `2.094` and `4.188`, which are
not exactly `2π/3` and `4π/3`. -/
theorem color_phase_not_exact :
    phase_g ≠ 2 * Real.pi / 3 ∧ phase_b ≠ 4 * Real.pi / 3 := by
  have hpi := Real.pi_gt_d6
  constructor
  · intro h
    simp only [phase_g] at h
    nlinarith
  · intro h
    simp only [phase_b] at h
    nlinarith

theorem channel_le (a : ℝ) (k : ℕ) :
    ⌊(255 : ℝ) * (0.5 + 0.5 * Real.sin a) * (1 - Real.exp (-0.1 * (k : ℝ)))⌋₊ ≤ 255 := by
  have h1 : Real.sin a ≤ 1 := Real.sin_le_one a
  have h2 : -1 ≤ Real.sin a := Real.neg_one_le_sin a
  have h3 : Real.exp (-0.1 * (k : ℝ)) ≤ 1 := by
    rw [Real.exp_le_one_iff]
    have hk : (0 : ℝ) ≤ (k : ℝ) := Nat.cast_nonneg k
    nlinarith
  have h4 : 0 < Real.exp (-0.1 * (k : ℝ)) := Real.exp_pos _
  have hle : (255 : ℝ) * (0.5 + 0.5 * Real.sin a) * (1 - Real.exp (-0.1 * (k : ℝ)))
      ≤ 255 := by nlinarith
  calc ⌊(255 : ℝ) * (0.5 + 0.5 * Real.sin a) * (1 - Real.exp (-0.1 * (k : ℝ)))⌋₊
      ≤ ⌊(255 : ℝ)⌋₊ := Nat.floor_le_floor hle
    _ = 255 := by norm_num

/-- Claim C3 (amended): for an escape result with
`iterations ≤ max_iter`, the kernel colouring (`smooth_iter` then
`get_color`) is black at the iteration cap and otherwise equals the
specification's smooth palette with the source's phase constants
`0`, `2.094`, `4.188`, with every channel in `[0, 255]`. -/
theorem smooth_color_matches_spec (maxIter : ℕ) (er : EscapeResult)
    (h : er.iterations ≤ maxIter) :
    colorOfResult maxIter er = smoothColorSpec maxIter er ∧
    (colorOfResult maxIter er).r ≤ 255 ∧
    (colorOfResult maxIter er).g ≤ 255 ∧
    (colorOfResult maxIter er).b ≤ 255 := by
  by_cases hm : er.iterations = maxIter
  · have hblack : colorOfResult maxIter er = ⟨0, 0, 0⟩ := by
      simp [colorOfResult, get_color, hm]
    rw [hblack]
    simp [smoothColorSpec, hm]
  · have hlt : er.iterations < maxIter := lt_of_le_of_ne h hm
    have heq : colorOfResult maxIter er = smoothColorSpec maxIter er := by
      simp [colorOfResult, get_color, smoothColorSpec, smooth_value, hm, hlt, add_zero]
    refine ⟨heq, ?_, ?_, ?_⟩ <;>
      · simp only [colorOfResult, get_color, smooth_value, hlt, if_pos, if_neg hm]
        exact channel_le _ _

/-- Witness for the amended C3 at the concrete escape result
`(iterations, magnitude) = (1, 17)` with `max_iter = 1` (the black
branch). -/
theorem smooth_color_matches_spec_witness :
    colorOfResult 1 ⟨1, 17⟩ = smoothColorSpec 1 ⟨1, 17⟩ ∧
    (colorOfResult 1 ⟨1, 17⟩).r ≤ 255 ∧
    (colorOfResult 1 ⟨1, 17⟩).g ≤ 255 ∧
    (colorOfResult 1 ⟨1, 17⟩).b ≤ 255 :=
  smooth_color_matches_spec 1 ⟨1, 17⟩ (le_refl 1)

/-- Claim C9: on escape the smoothing term is well defined — under the
bailout guarantee `final_magnitude_sq ≥ 16` the inner square root is at
least 4 and both logarithm arguments are strictly positive, so the
guarded computation never takes its error branch and agrees with the
kernel's total formula. -/
theorem smooth_term_defined_on_escape (v : FractalVariant) (c z0 : ℚ × ℚ)
    (maxIter : ℕ) (h : (evaluate v c z0 maxIter).iterations < maxIter) :
    smoothChecked ((evaluate v c z0 maxIter).final_magnitude_sq : ℝ) =
      some (smooth_value ((evaluate v c z0 maxIter).final_magnitude_sq : ℝ)) := by
  have hmag : (16 : ℚ) ≤ (evaluate v c z0 maxIter).final_magnitude_sq :=
    evaluate_escaped_mag v c z0 maxIter h
  set m : ℝ := ((evaluate v c z0 maxIter).final_magnitude_sq : ℝ) with hm
  have hm16 : (16 : ℝ) ≤ m := by
    rw [hm]
    exact_mod_cast hmag
  have hsqrt : (4 : ℝ) ≤ Real.sqrt m := by
    have h16 : Real.sqrt 16 ≤ Real.sqrt m := Real.sqrt_le_sqrt hm16
    have : Real.sqrt 16 = 4 := by
      rw [show (16 : ℝ) = 4 ^ 2 by norm_num, Real.sqrt_sq (by norm_num : (0:ℝ) ≤ 4)]
    linarith
  have hpos1 : 0 < Real.sqrt m := by linarith
  have hlog : 0 < Real.log (Real.sqrt m) := Real.log_pos (by linarith)
  simp [smoothChecked, safeLog, hpos1, hlog, smooth_value]

/-- Witness for C9 at a concrete escaping input (`c = (4, 0)` under
Mandelbrot escapes in one step with magnitude 16). -/
theorem smooth_term_defined_on_escape_witness :
    (evaluate .mandelbrot (4, 0) (0, 0) 2).iterations < 2 ∧
    smoothChecked ((evaluate .mandelbrot (4, 0) (0, 0) 2).final_magnitude_sq : ℝ) =
      some (smooth_value
        ((evaluate .mandelbrot (4, 0) (0, 0) 2).final_magnitude_sq : ℝ)) :=
  ⟨by norm_num [evaluate, escapeAux, iterOnce, complex_mul, complex_mag_squared],
   smooth_term_defined_on_escape .mandelbrot (4, 0) (0, 0) 2
     (by norm_num [evaluate, escapeAux, iterOnce, complex_mul, complex_mag_squared])⟩

theorem runGrid_not_mem (s : Scene) :
    ∀ (order : List (ℕ × ℕ)) (buf : ℕ → Color) (j : ℕ),
      (∀ p ∈ order, pixelIdx s.width p ≠ j) →
      runGrid s order buf j = buf j := by
  intro order
  induction order with
  | nil => intro buf j _; rfl
  | cons q rest ih =>
      intro buf j hj
      show runGrid s rest
        (Function.update buf (pixelIdx s.width q) (pixelColor s q.1 q.2)) j = buf j
      rw [ih _ j fun p hp => hj p (List.mem_cons_of_mem q hp)]
      exact Function.update_noteq (Ne.symm (hj q (List.mem_cons_self q rest))) _ _

theorem runGrid_mem (s : Scene) :
    ∀ (order : List (ℕ × ℕ)) (buf : ℕ → Color) (p : ℕ × ℕ),
      p ∈ order → (List.map (pixelIdx s.width) order).Nodup →
      runGrid s order buf (pixelIdx s.width p) = pixelColor s p.1 p.2 := by
  intro order
  induction order with
  | nil => intro buf p hp _; simp at hp
  | cons q rest ih =>
      intro buf p hp hnd
      rw [List.map_cons, List.nodup_cons] at hnd
      rcases List.mem_cons.mp hp with rfl | hmem
      · show runGrid s rest
          (Function.update buf (pixelIdx s.width p) (pixelColor s p.1 p.2))
          (pixelIdx s.width p) = pixelColor s p.1 p.2
        have hnm : ∀ r ∈ rest, pixelIdx s.width r ≠ pixelIdx s.width p := by
          intro r hr hEq
          apply hnd.1
          rw [← hEq]
          exact List.mem_map_of_mem (pixelIdx s.width) hr
        rw [runGrid_not_mem s rest _ _ hnm]
        exact Function.update_same _ _ _
      · exact ih _ p hmem hnd.2

theorem map_pixelIdx_allPixels (w h : ℕ) :
    List.map (pixelIdx w) (allPixels w h) = List.range (w * h) := by
  simp only [allPixels, List.map_map]
  have hfun : ∀ i ∈ List.range (w * h),
      (pixelIdx w ∘ fun i => (i % w, i / w)) i = id i := by
    intro i _
    show i / w * w + i % w = i
    calc i / w * w + i % w = w * (i / w) + i % w := by ring
      _ = i := Nat.div_add_mod i w
  rw [List.map_congr_left hfun, List.map_id]

theorem nodup_map_pixelIdx_allPixels (w h : ℕ) :
    (List.map (pixelIdx w) (allPixels w h)).Nodup := by
  rw [map_pixelIdx_allPixels]
  exact List.nodup_range _

theorem mem_allPixels (w h x y : ℕ) (hx : x < w) (hy : y < h) :
    (x, y) ∈ allPixels w h := by
  simp only [allPixels, List.mem_map, List.mem_range]
  refine ⟨y * w + x, ?_, ?_⟩
  · calc y * w + x < y * w + w := by omega
      _ = (y + 1) * w := by ring
      _ ≤ h * w := Nat.mul_le_mul_right w hy
      _ = w * h := by ring
  · have h1 : (y * w + x) % w = x := by
      rw [Nat.add_comm, Nat.add_mul_mod_self_right]
      exact Nat.mod_eq_of_lt hx
    have h2 : (y * w + x) / w = y := by
      rw [Nat.add_comm, Nat.add_mul_div_right x y (by omega : 0 < w)]
      rw [Nat.div_eq_of_lt hx]
      omega
    rw [h1, h2]

/-- Claim C6: the grid executor is deterministic — any two schedules
covering every pixel exactly once produce the same buffer, and each
buffer slot holds exactly the pure per-pixel pipeline result for its
pixel, a function of the scene alone. -/
theorem grid_executor_deterministic (s : Scene) (buf : ℕ → Color)
    (ord1 ord2 : List (ℕ × ℕ))
    (h1 : ord1.Perm (allPixels s.width s.height))
    (h2 : ord2.Perm (allPixels s.width s.height)) :
    runGrid s ord1 buf = runGrid s ord2 buf ∧
    (∀ x y, x < s.width → y < s.height →
      runGrid s ord1 buf (y * s.width + x) = pixelColor s x y) := by
  have hval : ∀ (ord : List (ℕ × ℕ)), ord.Perm (allPixels s.width s.height) →
      ∀ x y, x < s.width → y < s.height →
      runGrid s ord buf (y * s.width + x) = pixelColor s x y := by
    intro ord hperm x y hx hy
    have hmem : (x, y) ∈ ord :=
      hperm.mem_iff.mpr (mem_allPixels s.width s.height x y hx hy)
    have hnd : (List.map (pixelIdx s.width) ord).Nodup :=
      ((hperm.map (pixelIdx s.width)).nodup_iff).mpr
        (nodup_map_pixelIdx_allPixels s.width s.height)
    have := runGrid_mem s ord buf (x, y) hmem hnd
    simpa [pixelIdx] using this
  refine ⟨funext fun j => ?_, hval ord1 h1⟩
  by_cases hj : j ∈ List.map (pixelIdx s.width) (allPixels s.width s.height)
  · obtain ⟨p, hp, hpj⟩ := List.mem_map.mp hj
    have hmem1 : p ∈ ord1 := h1.mem_iff.mpr hp
    have hmem2 : p ∈ ord2 := h2.mem_iff.mpr hp
    have hnd1 : (List.map (pixelIdx s.width) ord1).Nodup :=
      ((h1.map (pixelIdx s.width)).nodup_iff).mpr
        (nodup_map_pixelIdx_allPixels s.width s.height)
    have hnd2 : (List.map (pixelIdx s.width) ord2).Nodup :=
      ((h2.map (pixelIdx s.width)).nodup_iff).mpr
        (nodup_map_pixelIdx_allPixels s.width s.height)
    rw [← hpj, runGrid_mem s ord1 buf p hmem1 hnd1, runGrid_mem s ord2 buf p hmem2 hnd2]
  · have hn1 : ∀ p ∈ ord1, pixelIdx s.width p ≠ j := fun p hp hEq =>
      hj (hEq ▸ List.mem_map_of_mem (pixelIdx s.width) (h1.mem_iff.mp hp))
    have hn2 : ∀ p ∈ ord2, pixelIdx s.width p ≠ j := fun p hp hEq =>
      hj (hEq ▸ List.mem_map_of_mem (pixelIdx s.width) (h2.mem_iff.mp hp))
    rw [runGrid_not_mem s ord1 buf j hn1, runGrid_not_mem s ord2 buf j hn2]

/-- Witness for C6 on a concrete 1×1 scene with the singleton
schedule: the single buffer slot holds the pipeline's value. -/
theorem grid_executor_deterministic_witness :
    runGrid ⟨.mandelbrot, ⟨0, 0, 1⟩, (0, 0), 1, 1, 0⟩ [(0, 0)] (fun _ => ⟨0, 0, 0⟩)
        (0 * 1 + 0) =
      pixelColor ⟨.mandelbrot, ⟨0, 0, 1⟩, (0, 0), 1, 1, 0⟩ 0 0 :=
  (grid_executor_deterministic ⟨.mandelbrot, ⟨0, 0, 1⟩, (0, 0), 1, 1, 0⟩
    (fun _ => ⟨0, 0, 0⟩) [(0, 0)] [(0, 0)] (by decide) (by decide)).2 0 0
    (by decide) (by decide)

theorem parseNatAux_no_digit (l : List ℕ) (acc : ℕ)
    (h : ∀ b, l.head? = some b → isDigitByte b = false) :
    parseNatAux l acc = (acc, l) := by
  cases l with
  | nil => rfl
  | cons b rest =>
      have hb := h b rfl
      simp [parseNatAux, hb]

theorem decRep_digits (n : ℕ) : ∀ b ∈ decRep n, isDigitByte b = true := by
  induction n using Nat.strong_induction_on with
  | _ n ih =>
      rw [decRep.eq_def]
      by_cases h : n < 10
      · rw [dif_pos h]
        intro b hb
        simp only [List.mem_singleton] at hb
        subst hb
        simp only [isDigitByte, Bool.and_eq_true, decide_eq_true_eq]
        omega
      · rw [dif_neg h]
        intro b hb
        rcases List.mem_append.mp hb with h1 | h2
        · exact ih (n / 10) (by omega) b h1
        · simp only [List.mem_singleton] at h2
          subst h2
          simp only [isDigitByte, Bool.and_eq_true, decide_eq_true_eq]
          omega

theorem decRep_ne_nil (n : ℕ) : decRep n ≠ [] := by
  rw [decRep.eq_def]
  by_cases h : n < 10
  · rw [dif_pos h]; simp
  · rw [dif_neg h]; simp

theorem parseNatAux_decRep (n : ℕ) :
    ∀ (rest : List ℕ) (acc : ℕ),
      parseNatAux (decRep n ++ rest) acc =
        parseNatAux rest (acc * 10 ^ (decRep n).length + n) := by
  induction n using Nat.strong_induction_on with
  | _ n ih =>
      intro rest acc
      rw [decRep.eq_def]
      by_cases h : n < 10
      · rw [dif_pos h]
        have hd : isDigitByte (48 + n) = true := by
          simp only [isDigitByte, Bool.and_eq_true, decide_eq_true_eq]
          omega
        simp only [List.singleton_append, parseNatAux, hd, if_true, List.length_singleton,
          pow_one]
        congr 1
        omega
      · rw [dif_neg h]
        rw [List.append_assoc, ih (n / 10) (by omega)]
        have hd : isDigitByte (48 + n % 10) = true := by
          simp only [isDigitByte, Bool.and_eq_true, decide_eq_true_eq]
          omega
        simp only [List.singleton_append, parseNatAux, hd, if_true, List.length_append,
          List.length_singleton]
        congr 1
        have h48 : 48 + n % 10 - 48 = n % 10 := by omega
        rw [h48, pow_succ, ← mul_assoc]
        generalize acc * 10 ^ (decRep (n / 10)).length = A
        omega

theorem parseNatBytes_decRep (n : ℕ) (rest : List ℕ)
    (h : ∀ b, rest.head? = some b → isDigitByte b = false) :
    parseNatBytes (decRep n ++ rest) = some (n, rest) := by
  obtain ⟨b, t, hbt⟩ : ∃ b t, decRep n = b :: t := by
    cases hd : decRep n with
    | nil => exact absurd hd (decRep_ne_nil n)
    | cons b t => exact ⟨b, t, rfl⟩
  have hb : isDigitByte b = true := decRep_digits n b (by rw [hbt]; simp)
  rw [hbt, List.cons_append]
  simp only [parseNatBytes, hb, if_true]
  rw [← List.cons_append, ← hbt, parseNatAux_decRep n rest 0]
  rw [parseNatAux_no_digit rest _ h]
  simp

theorem payloadBytes_length (buf : List Color) :
    (payloadBytes buf).length = 3 * buf.length := by
  induction buf with
  | nil => rfl
  | cons c t ih =>
      simp only [payloadBytes] at ih
      simp only [payloadBytes, List.flatMap_cons, List.length_append, List.length_cons,
        List.length_nil, ih]
      omega

/-- Claim C7: `save_ppm`'s successful output is exactly the ASCII header
`"P6\n{W} {H}\n255\n"` followed by the `W*H*3` raw payload bytes, and
re-parsing the written bytes recovers `W`, `H`, the maximum channel
value `255`, and the payload. -/
theorem ppm_round_trip (w h : ℕ) (buf : List Color) (hlen : buf.length = w * h) :
    parsePPM (savePPMBytes w h buf) = some (w, h, 255, payloadBytes buf) ∧
    (payloadBytes buf).length = w * h * 3 ∧
    savePPMBytes w h buf =
      [80, 54, 10] ++ decRep w ++ [32] ++ decRep h ++ [10, 50, 53, 53, 10]
        ++ payloadBytes buf := by
  refine ⟨?_, ?_, rfl⟩
  · have hd2 : decRep 2 = [50] := by
      rw [decRep.eq_def, dif_pos (by norm_num : (2 : ℕ) < 10)]
    have hd25 : decRep 25 = [50, 53] := by
      rw [decRep.eq_def, dif_neg (by norm_num : ¬(25 : ℕ) < 10)]
      norm_num [hd2]
    have h255 : decRep 255 = [50, 53, 53] := by
      rw [decRep.eq_def, dif_neg (by norm_num : ¬(255 : ℕ) < 10)]
      norm_num [hd25]
    have hw : parseNatBytes
        (decRep w ++ 32 :: (decRep h ++ 10 :: 50 :: 53 :: 53 :: 10 :: payloadBytes buf)) =
        some (w, 32 :: (decRep h ++ 10 :: 50 :: 53 :: 53 :: 10 :: payloadBytes buf)) :=
      parseNatBytes_decRep w _ (by intro b hb; simp at hb; subst hb; decide)
    have hh : parseNatBytes
        (decRep h ++ 10 :: 50 :: 53 :: 53 :: 10 :: payloadBytes buf) =
        some (h, 10 :: 50 :: 53 :: 53 :: 10 :: payloadBytes buf) :=
      parseNatBytes_decRep h _ (by intro b hb; simp at hb; subst hb; decide)
    have hm : parseNatBytes (50 :: 53 :: 53 :: 10 :: payloadBytes buf) =
        some (255, 10 :: payloadBytes buf) := by
      have := parseNatBytes_decRep 255 (10 :: payloadBytes buf)
        (by intro b hb; simp at hb; subst hb; decide)
      rwa [h255, List.cons_append, List.cons_append, List.cons_append,
        List.nil_append] at this
    simp only [savePPMBytes, List.append_assoc, List.cons_append, List.nil_append]
    simp [parsePPM, expectByte, hw, hh, hm]
  · rw [payloadBytes_length, hlen]
    ring

/-- Witness for C7 with a concrete 1×1 buffer. -/
theorem ppm_round_trip_witness :
    parsePPM (savePPMBytes 1 1 [⟨5, 6, 7⟩]) =
      some (1, 1, 255, payloadBytes [⟨5, 6, 7⟩]) ∧
    (payloadBytes [(⟨5, 6, 7⟩ : Color)]).length = 1 * 1 * 3 ∧
    savePPMBytes 1 1 [⟨5, 6, 7⟩] =
      [80, 54, 10] ++ decRep 1 ++ [32] ++ decRep 1 ++ [10, 50, 53, 53, 10]
        ++ payloadBytes [⟨5, 6, 7⟩] :=
  ppm_round_trip 1 1 [⟨5, 6, 7⟩] (by decide)

/-- Claim C8: a destination-open failure makes `save_ppm` report and
write nothing (`none` for that scene), the run still processes every
scene, and each scene's outcome depends only on its own destination's
openability — other scenes are unaffected. -/
theorem writer_failure_isolated (fs fs' : String → Bool) :
    (runMain fs).length = sceneFiles.length ∧
    (∀ (i : ℕ) (name : String) (sc : Scene), sceneFiles[i]? = some (name, sc) →
      ((runMain fs)[i]? =
          some (name, save_ppm (fs name) sc.width sc.height (renderList sc)) ∧
        (fs name = false → (runMain fs)[i]? = some (name, none)) ∧
        (fs name = fs' name → (runMain fs)[i]? = (runMain fs')[i]?))) := by
  refine ⟨by simp [runMain], ?_⟩
  intro i name sc hscene
  have h1 : (runMain fs)[i]? =
      some (name, save_ppm (fs name) sc.width sc.height (renderList sc)) := by
    simp [runMain, List.getElem?_map, hscene]
  refine ⟨h1, ?_, ?_⟩
  · intro hfail
    rw [h1, hfail]
    simp [save_ppm]
  · intro hagree
    have h2 : (runMain fs')[i]? =
        some (name, save_ppm (fs' name) sc.width sc.height (renderList sc)) := by
      simp [runMain, List.getElem?_map, hscene]
    rw [h1, h2, hagree]

/-- Witness for C8: with every destination unopenable, the first scene's
image is reported as not produced. -/
theorem writer_failure_isolated_witness :
    (runMain fun _ => false)[0]? = some ("mandelbrot_classic.ppm", none) :=
  ((writer_failure_isolated (fun _ => false) (fun _ => true)).2 0
    "mandelbrot_classic.ppm" mandelbrotClassicScene rfl).2.1 rfl

end CudaFractals
